import Mathlib

/-!
# Verification of the `huffman` package (canonical length-limited Huffman coding)

A shallow embedding of the package's Go sources (`bitio.go`, `huffman.go`)
into Lean 4, together with theorems settling the specification claims.

Conventions of the embedding:

* Go machine integers become `Nat` with explicit `% 2^w` at the points where
  the Go code performs fixed-width arithmetic (`uint32`, `uint64`, `byte`).
* Byte slices become `List Nat` (each entry `< 256` where it matters).
* Go panics become a distinguished constructor of the result type.
* Where the Go source combines provably disjoint bit ranges with `|`, the
  embedding may use `+`, which is equal on disjoint operands; each such
  place is commented.
-/

/-! ## bitio.go : bitWriter -/

/-- `bitcode` from huffman.go: a pair (val, len); `val` occupies the low
`len` bits. -/
structure bitcode where
  val : Nat
  len : Nat
deriving DecidableEq, Repr

/-- The state of `bitWriter` from bitio.go.  The `io.Writer` sink is
modelled as the list `out` of bytes written so far; a pure list sink never
fails, so the latched `err` field of the Go struct is omitted (it stays
`nil` in all runs modelled here). -/
structure bitWriter where
  out : List Nat
  bits : Nat
  nbits : Nat
deriving DecidableEq, Repr

/-- `newBitWriter` from bitio.go (fresh sink, empty bit buffer). -/
def newBitWriter : bitWriter := ⟨[], 0, 0⟩

/-- `bitWriter.writeBits` from bitio.go:
`w.bits |= uint64(b) << w.nbits; w.nbits += n;` then if `nbits > 32`,
write the low 4 bytes and shift the buffer down by 32. -/
def bitWriter.writeBits (w : bitWriter) (b : Nat) (n : Nat) : bitWriter :=
  let bits := w.bits ||| ((b <<< w.nbits) % 2^64)
  let nbits := w.nbits + n
  if nbits > 32 then
    { out := w.out ++ [bits % 2^8, bits / 2^8 % 2^8, bits / 2^16 % 2^8, bits / 2^24 % 2^8]
      bits := bits / 2^32
      nbits := nbits - 32 }
  else
    { out := w.out, bits := bits, nbits := nbits }

/-- The loop body of `bitWriter.flush` from bitio.go: at most 4 iterations
(`i < 4`), each emitting the low byte of the buffer while bits remain;
`nbits` is decremented by 8, clamping at 0. -/
def bitWriter.flushBytes : Nat → Nat → Nat → List Nat
  | 0, _, _ => []
  | fuel + 1, bits, nbits =>
    if 0 < nbits then
      bits % 2^8 :: bitWriter.flushBytes fuel (bits / 2^8) (if nbits > 8 then nbits - 8 else 0)
    else []

/-- `bitWriter.Close` from bitio.go: flush the remaining buffered bits as
whole bytes (zero padding the final partial byte on the high side) and
return the full byte stream written to the sink. -/
def bitWriter.close (w : bitWriter) : List Nat :=
  w.out ++ bitWriter.flushBytes 4 w.bits w.nbits

/-! ## bitio.go : bitReader -/

/-- Errors surfaced by the reader: `io.EOF`, `io.ErrUnexpectedEOF`, and Go
`panic` (the two explicit panics in `readBits`). -/
inductive readErr where
  | eof
  | unexpectedEOF
  | panicked
deriving DecidableEq, Repr

/-- The state of `bitReader` from bitio.go.  The `io.Reader` source is
modelled as the list `src` of bytes not yet read; like `bytes.Reader`, a
read delivers `min 4 src.length` bytes. -/
structure bitReader where
  err : Option readErr
  src : List Nat
  remaining : Nat
  bits : Nat
  nbits : Nat
deriving DecidableEq, Repr

/-- `bitReader.fill` from bitio.go.  Reads up to 4 bytes into `buf`
(missing bytes are 0), packs them as
`u = buf[3]<<24 | buf[2]<<16 | buf[1]<<8 | buf[0]` (the `|` combines
disjoint byte ranges, hence `+`), and merges them above the current
buffer: `r.bits = uint64(u<<r.nbits) | uint64(lowOrderBits(r.bits, r.nbits))`.
Note the Go shift `u<<r.nbits` is performed on `uint32`, hence the
`% 2^32` truncation here. -/
def bitReader.fill (r : bitReader) : bitReader :=
  let n := min 4 r.src.length
  if n = 0 then
    if r.remaining = 0 then { r with err := some .eof }
    else { r with err := some .unexpectedEOF }
  else
    let u := r.src.getD 0 0 + r.src.getD 1 0 * 2^8 + r.src.getD 2 0 * 2^16 + r.src.getD 3 0 * 2^24
    { r with
      bits := ((u <<< r.nbits) % 2^32) ||| (r.bits % 2^r.nbits)
      nbits := min (r.nbits + n * 8) r.remaining
      src := r.src.drop n }

/-- `newBitReader` from bitio.go: budget of `n` bits, then an eager `fill`. -/
def newBitReader (src : List Nat) (n : Nat) : bitReader :=
  bitReader.fill { err := none, src := src, remaining := n, bits := 0, nbits := 0 }

/-- `bitReader.readBits` from bitio.go.  Returns the result together with
the updated reader state.  The two `panic` sites of the Go code (bad `n`,
and `nbits < n` after a fill) are the `.panicked` error.  Note that the
budget check `n > r.remaining` returns `UnexpectedEOF` without latching
`r.err`, exactly as the Go code does. -/
def bitReader.readBits (r : bitReader) (n : Nat) : Except readErr Nat × bitReader :=
  match r.err with
  | some e => (.error e, r)
  | none =>
    if n = 0 ∨ n > 8 then (.error .panicked, r)
    else if n > r.remaining then (.error .unexpectedEOF, r)
    else
      let r1 := if r.nbits < n then r.fill else r
      match r1.err with
      | some e => (.error e, r1)
      | none =>
        if r1.nbits < n then (.error .panicked, r1)
        else (.ok (r1.bits % 2^n), { r1 with nbits := r1.nbits - n, bits := r1.bits >>> n })

/-- Run a sequence of `readBits` calls, threading the reader state. -/
def readList (r : bitReader) : List Nat → List (Except readErr Nat)
  | [] => []
  | n :: ns =>
    let p := r.readBits n
    p.1 :: readList p.2 ns

/-! ## Reference bit-level semantics (for stating what the byte stream holds) -/

/-- The number whose base-256 little-endian digits are the given bytes;
bit `i` of this number is bit `i % 8` of byte `i / 8`, i.e. exactly the
LSB-first bit stream of bitio.go. -/
def natOfBytes : List Nat → Nat
  | [] => 0
  | b :: bs => b + 256 * natOfBytes bs

/-- The `width` bits of the byte stream starting at bit position `pos`
(LSB-first at both bit and byte granularity), as a number. -/
def streamBits (bytes : List Nat) (pos width : Nat) : Nat :=
  natOfBytes bytes / 2^pos % 2^width

/-! ## huffman.go : NewCode validation -/

/-- `maxCodeLen` from huffman.go. -/
def maxCodeLen : Nat := 20

/-- The two construction failures of `NewCode` (huffman.go lines 38-45):
too many frequencies, and a negative frequency. -/
inductive newCodeErr where
  | tooManySymbols
  | invalidFrequency
deriving DecidableEq, Repr

/-- The validation prefix of `NewCode` from huffman.go: the length check,
then the scan for a negative frequency; `none` means validation passed and
construction proceeds.  (The construction itself calls `newHuffmanEncoder`
/ `generate`, which are not part of the sources under verification; no
claim depends on them.) -/
def newCodeCheck (frequencies : List Int) : Option newCodeErr :=
  if frequencies.length > 2^maxCodeLen then some .tooManySymbols
  else if frequencies.any (· < 0) then some .invalidFrequency
  else none

/-! ## huffman.go : Marshal / UnmarshalCode / assignValues -/

/-- `marshalVersion` from huffman.go. -/
def marshalVersion : Nat := 0

/-- The magic first byte of the marshal format: `0b11<<6 | marshalVersion`
(the `|` combines disjoint bit ranges, hence `+`). -/
def magicByte : Nat := 0b11 * 2^6 + marshalVersion

/-- The loop of the `rep` closure inside `Code.Marshal` (huffman.go lines
75-85), with an explicit fuel so the recursion is structural: one full
byte per iteration while `R` reaches the repeat capacity `2^ln`, then one
final byte for the partial run.  Each iteration lowers `R` by `2^ln ≥ 1`,
so any `fuel ≥ R` runs the loop to completion. -/
def repAux : Nat → Nat → Nat → Nat → List Nat
  | 0, _, _, _ => []
  | fuel + 1, R, ln, bottom =>
    if 2^ln ≤ R then
      ((2^ln - 1) * 2^(8 - ln) + bottom) :: repAux fuel (R - 2^ln) ln bottom
    else if 0 < R then
      [(R - 1) * 2^(8 - ln) + bottom]
    else []

/-- The `rep` closure inside `Code.Marshal` (huffman.go lines 75-85):
emit a run of `R` repeats using a repeat field of `ln` bits placed at
`8 - ln`, over the fixed low bits `bottom`.  The Go `|` combines the
disjoint repeat field and `bottom`, hence `+`. -/
def rep (R ln bottom : Nat) : List Nat := repAux R R ln bottom

/-- The loop of the run-length body of `Code.Marshal` (huffman.go lines
87-109), with an explicit fuel so the recursion is structural: split the
length sequence into maximal runs of an identical length `L` and emit
each run in the encoding selected by `L`; a length above 20 is the Go
`panic` (modelled as `none`).  The Go `(L-1)<<2|1` and `(L-17)<<2|0b11`
combine disjoint bit ranges, hence `+`.  Each iteration removes at least
the head element, so any `fuel ≥ lens.length` runs the loop to
completion (the `0, _ :: _` arm is unreachable then). -/
def marshalBodyAux : Nat → List Nat → Option (List Nat)
  | _, [] => some []
  | 0, _ :: _ => none
  | fuel + 1, L :: rest =>
    let R := (rest.takeWhile (· == L)).length + 1
    let tail := rest.dropWhile (· == L)
    let chunk : Option (List Nat) :=
      if L = 0 then some (rep R 7 0)
      else if L ≤ 16 then some (rep R 2 ((L - 1) * 4 + 1))
      else if L ≤ 20 then some (rep R 4 ((L - 17) * 4 + 3))
      else none
    match chunk with
    | none => none
    | some c => (marshalBodyAux fuel tail).map (fun m => c ++ m)

/-- The run-length body of `Code.Marshal` (huffman.go lines 87-109). -/
def marshalBody (lens : List Nat) : Option (List Nat) := marshalBodyAux lens.length lens

/-- `countsOf codes L` is `counts[L]` of `assignValues` (huffman.go lines
148-151): the number of codes whose length is `L`. -/
def countsOf (codes : List bitcode) (L : Nat) : Nat :=
  (codes.filter (fun c => c.len == L)).length

/-- The `nextVal` array of `assignValues` (huffman.go lines 152-157), as a
function of the length: `nextVal 0 = 0` (unused) and
`nextVal (L+1) = (nextVal L + counts L) << 1` with `counts 0` treated as
`0` (the Go code zeroes `counts[0]` before the loop). -/
def nextVal (cnt : Nat → Nat) : Nat → Nat
  | 0 => 0
  | L + 1 => (nextVal cnt L + (if L = 0 then 0 else cnt L)) * 2

/-- Functional update of the mutable `nextVal` array. -/
def updateAt (nv : Nat → Nat) (L v : Nat) : Nat → Nat :=
  fun x => if x = L then v else nv x

/-- The final loop of `assignValues` (huffman.go lines 158-163): walk the
codes in order; each code of non-zero length receives
`val = nextVal[len]++`; zero-length codes are left untouched. -/
def assignLoop (nv : Nat → Nat) : List bitcode → List bitcode
  | [] => []
  | c :: cs =>
    if c.len = 0 then c :: assignLoop nv cs
    else ⟨nv c.len, c.len⟩ :: assignLoop (updateAt nv c.len (nv c.len + 1)) cs

/-- `assignValues` from huffman.go lines 145-164. -/
def assignValues (codes : List bitcode) : List bitcode :=
  assignLoop (nextVal (countsOf codes)) codes

/-- The number of codes of length `L` among the first `i` entries: how many
times `nextVal[L]++` has fired before the walk reaches index `i`. -/
def countLenBefore (codes : List bitcode) (i L : Nat) : Nat :=
  ((codes.take i).filter (fun d => d.len == L)).length

/-- The Kraft sum of a code, scaled by `2^maxCodeLen` to stay in `Nat`:
`Σ 2^(20 - len)` over the non-zero-length entries.  The real-valued Kraft
inequality `Σ 2^(-len) ≤ 1` is exactly `kraftSum ≤ 2^20` for lengths at
most 20. -/
def kraftSum (codes : List bitcode) : Nat :=
  (codes.map (fun c => if c.len = 0 then 0 else 2^(maxCodeLen - c.len))).sum

/-- `a` is a bit-prefix of `b`: reading the codewords MSB-first (as RFC
1951 writes them), the first `a.len` bits of `b` spell exactly `a`. -/
def prefixOf (a b : bitcode) : Prop :=
  a.len ≤ b.len ∧ b.val / 2^(b.len - a.len) = a.val

instance (a b : bitcode) : Decidable (prefixOf a b) := by
  unfold prefixOf
  infer_instance

/-- The per-byte expansion step of `UnmarshalCode` (huffman.go lines
123-139): dispatch on the low bits of the byte and replicate the decoded
length `R` times.  Go's `b>>1`, `(b>>2)&15`, `b>>6`, `(b>>2)&3`, `b>>4`
are `/2`, `/4 % 16`, `/64`, `/4 % 4`, `/16`. -/
def expand (b : Nat) : List Nat :=
  if b % 2 = 0 then List.replicate (b / 2 + 1) 0
  else if b % 4 = 1 then List.replicate (b / 64 + 1) (b / 4 % 16 + 1)
  else List.replicate (b / 16 + 1) (b / 4 % 4 + 17)

/-- The errors of `UnmarshalCode` (huffman.go lines 116-121). -/
inductive unmarshalErr where
  | emptyData
  | badMagic
deriving DecidableEq, Repr

/-- `UnmarshalCode` from huffman.go lines 115-143: check for empty data and
the magic byte, expand every remaining byte into repeated lengths, then
assign canonical values with `assignValues`. -/
def UnmarshalCode (data : List Nat) : Except unmarshalErr (List bitcode) :=
  match data with
  | [] => .error .emptyData
  | b :: body =>
    if b ≠ magicByte then .error .badMagic
    else .ok (assignValues ((body.flatMap expand).map (fun L => ⟨0, L⟩)))

/-- `Code.Marshal` from huffman.go lines 62-112: the magic byte followed by
the run-length body over the code lengths; `none` is the Go `panic` on a
length above 20. -/
def Marshal (codes : List bitcode) : Option (List Nat) :=
  (marshalBody (codes.map bitcode.len)).map (fun body => magicByte :: body)

/-! ## huffman.go : Encoder -/

/-- `Code.code` from huffman.go lines 168-173: a symbol at or beyond the
end of the code table gets the zero `bitcode`. -/
def Code.code (codes : List bitcode) (s : Nat) : bitcode :=
  if s ≥ codes.length then ⟨0, 0⟩ else codes.getD s ⟨0, 0⟩

/-- Outcome of an encode operation: either the updated writer, or the Go
`panic(fmt.Sprintf("no code for symbol %d", s))` of `WriteSymbol`
(huffman.go line 279), carrying the offending symbol.  `WriteSymbol`
returns no error to its caller; the panic aborts the operation. -/
inductive encodeResult where
  | ok (w : bitWriter)
  | panicked (s : Nat)
deriving DecidableEq, Repr

/-- `Encoder.WriteSymbol` from huffman.go lines 275-283: look the symbol up
in the code; a zero-length entry panics, otherwise the bitcode is fed to
the bit writer. -/
def WriteSymbol (codes : List bitcode) (w : bitWriter) (s : Nat) : encodeResult :=
  let b := Code.code codes s
  if b.len = 0 then .panicked s
  else .ok (w.writeBits b.val b.len)

/-- `Encoder.WriteSymbols` from huffman.go lines 286-290: `WriteSymbol`
repeatedly; a panic aborts the rest. -/
def WriteSymbols (codes : List bitcode) (w : bitWriter) : List Nat → encodeResult
  | [] => .ok w
  | s :: ss =>
    match WriteSymbol codes w s with
    | .ok w' => WriteSymbols codes w' ss
    | .panicked t => .panicked t

/-! ## huffman.go : Decoder table -/

/-- The `action` entry of the decode `table` (huffman.go lines 319-323).
The `table *table` field for codes longer than 8 bits is omitted: the
source's `add` panics (`"unimp"`) before ever chaining a sub-table. -/
structure action where
  sym : Nat
  len : Nat
deriving DecidableEq, Repr

/-- The zero-initialised 256-entry decode table, as a function. -/
def emptyTable : Nat → action := fun _ => ⟨0, 0⟩

/-- `table.add` from huffman.go lines 333-341: for a code of length at most
8 set the `2^(8-len)` consecutive entries `t[val] .. t[val+2^(8-len)-1]`;
a longer code is the Go `panic("unimp")`, modelled as `none`. -/
def tableAdd (t : Nat → action) (val ln sym : Nat) : Option (Nat → action) :=
  if ln ≤ 8 then
    some (fun j => if val ≤ j ∧ j < val + 2^(8 - ln) then ⟨sym, ln⟩ else t j)
  else none

/-- The loop of `buildTable` (huffman.go lines 325-331), adding code `s`
onwards. -/
def buildTableAux (t : Nat → action) (s : Nat) : List bitcode → Option (Nat → action)
  | [] => some t
  | c :: cs =>
    match tableAdd t c.val c.len s with
    | none => none
    | some t' => buildTableAux t' (s + 1) cs

/-- `buildTable` from huffman.go lines 325-331: add every code, in symbol
order (later adds overwrite earlier entries, as in the Go array writes). -/
def buildTable (codes : List bitcode) : Option (Nat → action) :=
  buildTableAux emptyTable 0 codes

/-- `Decoder.Read` from huffman.go line 343-345, verbatim: a stub that
consumes nothing and reports no symbols and no error. -/
def DecoderRead (_buf : List Nat) : Nat × Option readErr := (0, none)

/-- Modelled from the spec: the decoding loop of spec section 4.5, which is
missing from the source (`Decoder.Read` and `Decoder.DecodeSymbols` are
stubs).  One symbol per step: probe the table with the next 8 bits of
lookahead (the stream is LSB-first, so the lookahead byte's low bits are
the earliest unconsumed bits, exactly what `bitReader.peek` returns),
consume `len` bits and emit `sym`; stop when the bit budget is exhausted;
a symbol longer than the remaining budget is `UnexpectedEOF`.  A probe
that hits a table entry of length 0 (a slot no code was assigned to) has
no defined action in the source or the spec and is modelled as a panic.
The fuel argument exceeds the budget, and each step consumes at least one
bit, so fuel never runs out. -/
def decodeLoop (t : Nat → action) (bytes : List Nat) :
    Nat → Nat → Nat → List Nat → Except readErr (List Nat)
  | 0, _, _, _ => .error .panicked
  | fuel + 1, pos, budget, acc =>
    if budget = 0 then .ok acc.reverse
    else
      let a := t (streamBits bytes pos 8)
      if a.len = 0 then .error .panicked
      else if budget < a.len then .error .unexpectedEOF
      else decodeLoop t bytes fuel (pos + a.len) (budget - a.len) (a.sym :: acc)

/-- Modelled from the spec: decoding a byte stream under an exact bit
budget (spec sections 4.5 and 8), over the source's `buildTable`.  The
`Decoder.Read` / `Decoder.SetEncoded` pair in the source is an
unimplemented stub. -/
def decode (codes : List bitcode) (bytes : List Nat) (budget : Nat) :
    Except readErr (List Nat) :=
  match buildTable codes with
  | none => .error .panicked
  | some t => decodeLoop t bytes (budget + 1) 0 budget []


/-- Decidable equality for `Except` results (not provided by the core
library), used to settle concrete runs by `decide`. -/
instance {e a : Type} [DecidableEq e] [DecidableEq a] : DecidableEq (Except e a) := fun x y =>
  match x, y with
  | .error u, .error v =>
    if h : u = v then .isTrue (h ▸ rfl) else .isFalse fun hh => h (Except.error.inj hh)
  | .error _, .ok _ => .isFalse fun hh => Except.noConfusion hh
  | .ok _, .error _ => .isFalse fun hh => Except.noConfusion hh
  | .ok u, .ok v =>
    if h : u = v then .isTrue (h ▸ rfl) else .isFalse fun hh => h (Except.ok.inj hh)

/-! ## Theorems -/

/-! ### C2: the bit budget of `bitReader` -/

/-- Claim C2: `readBits(n)` is claimed to fail with `UnexpectedEOF` when
fewer than `n` bits of the budget remain unconsumed, counting bits
delivered by earlier `readBits` calls, even if the source has more bytes.
The code violates this: `remaining` is never decremented, so with a budget
of 4 bits over an 8-byte source, a first `readBits 4` consumes the whole
budget yet a second `readBits 4` still succeeds, delivering bits of the
fifth source byte from beyond the logical boundary. -/
theorem readBits_budget_not_enforced :
    ((newBitReader [1, 0, 0, 0, 2, 0, 0, 0] 4).readBits 4).1 = .ok 1
    ∧ (((newBitReader [1, 0, 0, 0, 2, 0, 0, 0] 4).readBits 4).2.readBits 4).1 = .ok 2
    ∧ (Except.ok 2 : Except readErr Nat) ≠ .error .unexpectedEOF := by
  decide

/-! ### C8: bitWriter/bitReader round trip -/

/-- Claim C8: writing a sequence of (value, width) pairs and reading the
bytes back in width-compatible chunks of at most 8 bits under the exact
bit budget is claimed to reproduce the written bits.  The code violates
this: `fill` computes `u<<r.nbits` in `uint32`, truncating up to 7 high
bits when four bytes are read into a buffer already holding 1-7 bits.
Writing (0, 32) then (2^32-1, 32) and reading chunks [8,8,8,6,3,8,8,8,7]
under budget 64 returns 31 for the last chunk, while bits 57..63 of the
produced stream are 127. -/
theorem fill_truncates_bits :
    ((newBitWriter.writeBits 0 32).writeBits (2^32 - 1) 32).close
      = [0, 0, 0, 0, 255, 255, 255, 255]
    ∧ readList (newBitReader [0, 0, 0, 0, 255, 255, 255, 255] 64) [8, 8, 8, 6, 3, 8, 8, 8, 7]
      = [.ok 0, .ok 0, .ok 0, .ok 0, .ok 4, .ok 255, .ok 255, .ok 255, .ok 31]
    ∧ streamBits [0, 0, 0, 0, 255, 255, 255, 255] 57 7 = 127
    ∧ (31 : Nat) ≠ 127 := by
  decide

/-! ### C1: Encode/Decode round trip -/

/-- Claim C1: for every Code, decoding the encoding of a symbol sequence
over non-zero-length symbols is claimed to return the sequence.  The code
violates this.  `Decoder.Read` in the source is a stub returning
`(0, nil)`, so the implemented decoder yields no symbols at all; and the
encode side is incompatible with the source's decode table: the canonical
code for lengths [1,2,2] assigns values [0,2,3], `WriteSymbol` emits each
value LSB-first so the stream of [0, 2] is the single byte 6 under a
3-bit budget, and table-driven decoding (the source's `buildTable`
together with the spec's decoding loop, which is missing from the source)
resolves that stream as [2, 0], not [0, 2]. -/
theorem encode_decode_roundtrip_fails :
    assignValues [⟨0, 1⟩, ⟨0, 2⟩, ⟨0, 2⟩] = [⟨0, 1⟩, ⟨2, 2⟩, ⟨3, 2⟩]
    ∧ WriteSymbols (assignValues [⟨0, 1⟩, ⟨0, 2⟩, ⟨0, 2⟩]) newBitWriter [0, 2]
      = .ok ⟨[], 6, 3⟩
    ∧ bitWriter.close ⟨[], 6, 3⟩ = [6]
    ∧ decode (assignValues [⟨0, 1⟩, ⟨0, 2⟩, ⟨0, 2⟩]) [6] 3 = .ok [2, 0]
    ∧ ([2, 0] : List Nat) ≠ [0, 2]
    ∧ DecoderRead [6] = (0, none) := by
  decide

/-! ### C3: encoding a symbol with no code -/

/-- Claim C3 (counterexample to the claim as stated): the claim says the
encode operation fails with a `NoCodeForSymbol` error returned to the
caller, not a crash/panic.  On the concrete one-symbol code whose only
entry has length 0, `WriteSymbol` takes the Go `panic` path (the
`.panicked` constructor); it has no error return at all. -/
theorem writeSymbol_panics_counterexample :
    WriteSymbol [⟨0, 0⟩] newBitWriter 0 = .panicked 0 := by
  decide

/-- Claim C3 (amended): whenever the encoder is asked to encode a symbol
whose code length is 0 (absent symbol, or index beyond the Code's range),
`WriteSymbol` aborts the encode operation by panicking with the offending
symbol — it never returns normally, and nothing is written or substituted
(the result carries no writer state). -/
theorem writeSymbol_zero_length_panics (codes : List bitcode) (w : bitWriter) (s : Nat)
    (h : (Code.code codes s).len = 0) :
    WriteSymbol codes w s = .panicked s := by
  unfold WriteSymbol
  simp [h]

/-- Witness for `writeSymbol_zero_length_panics` at a concrete input. -/
theorem writeSymbol_zero_length_panics_witness :
    (Code.code [⟨5, 0⟩, ⟨1, 1⟩] 0).len = 0
    ∧ WriteSymbol [⟨5, 0⟩, ⟨1, 1⟩] newBitWriter 0 = .panicked 0 :=
  ⟨by decide, writeSymbol_zero_length_panics [⟨5, 0⟩, ⟨1, 1⟩] newBitWriter 0 (by decide)⟩

/-! ### C7: NewCode validation errors -/

/-- Claim C7 (counterexample to the claim as stated): the claim says
`NewCode` returns `InvalidFrequency` for every table containing a negative
entry; but on a table that is also longer than 2^20 entries the length
check fires first and the result is `TooManySymbols`. -/
theorem newCode_negative_overlong_counterexample :
    newCodeCheck ((-1) :: List.replicate (2^20) 0) = some .tooManySymbols
    ∧ (-1 : Int) ∈ (-1) :: List.replicate (2^20) 0
    ∧ (-1 : Int) < 0
    ∧ some newCodeErr.tooManySymbols ≠ some newCodeErr.invalidFrequency := by
  refine ⟨?_, List.mem_cons_self _ _, by norm_num, by simp⟩
  have h : ((-1 : Int) :: List.replicate (2^20) 0).length > 2^maxCodeLen := by
    have h1 : ((-1 : Int) :: List.replicate (2^20) 0).length = 2^20 + 1 := by
      rw [List.length_cons, List.length_replicate]
    rw [h1]
    unfold maxCodeLen
    exact Nat.lt_succ_self _
  unfold newCodeCheck
  rw [if_pos h]

/-- Claim C7 (amended): `NewCode` fails before any construction work with
`TooManySymbols` on every table longer than 2^20 entries; for a table of
at most 2^20 entries containing a negative entry it fails with
`InvalidFrequency` (the length check takes precedence when both
conditions hold); and no partial code escapes — validation precedes
construction. -/
theorem newCode_validation (freqs : List Int) :
    (freqs.length > 2^maxCodeLen → newCodeCheck freqs = some .tooManySymbols)
    ∧ (freqs.length ≤ 2^maxCodeLen → (∃ f ∈ freqs, f < 0) →
        newCodeCheck freqs = some .invalidFrequency) := by
  constructor
  · intro h
    unfold newCodeCheck
    rw [if_pos h]
  · intro hlen hneg
    unfold newCodeCheck
    rw [if_neg (by omega), if_pos]
    obtain ⟨f, hf, hf0⟩ := hneg
    exact List.any_eq_true.mpr ⟨f, hf, by simpa using hf0⟩

/-- Witness for `newCode_validation` at a concrete input. -/
theorem newCode_validation_witness :
    ([(-5 : Int)].length ≤ 2^maxCodeLen → (∃ f ∈ [(-5 : Int)], f < 0) →
        newCodeCheck [(-5 : Int)] = some .invalidFrequency)
    ∧ newCodeCheck [(-5 : Int)] = some .invalidFrequency :=
  ⟨(newCode_validation [(-5 : Int)]).2,
   (newCode_validation [(-5 : Int)]).2 (by decide) ⟨-5, by decide, by decide⟩⟩

/-! ### C10: UnmarshalCode totality after the magic byte -/

/-- Claim C10: `UnmarshalCode` succeeds on every input whose first byte is
the magic byte, whatever the remaining bytes are — every body byte matches
one of the three run encodings — and the one-byte input of just the magic
byte yields a code with zero symbols. -/
theorem unmarshal_total_after_magic :
    (∀ rest : List Nat, ∃ code, UnmarshalCode (magicByte :: rest) = .ok code)
    ∧ UnmarshalCode [magicByte] = .ok [] := by
  constructor
  · intro rest
    refine ⟨assignValues ((rest.flatMap expand).map (fun L => ⟨0, L⟩)), ?_⟩
    simp [UnmarshalCode]
  · decide

/-! ### C4/C9: the marshal run-length body round trip -/

/-- A byte of the zero-length run form `RRRRRRR0` expands back to its run. -/
theorem expand_rep_zero (r : Nat) (h1 : 1 ≤ r) (h2 : r ≤ 2^7) :
    expand ((r - 1) * 2^(8 - 7) + 0) = List.replicate r 0 := by
  unfold expand
  rw [if_pos (by omega)]
  congr 1
  omega

/-- A byte of the length-1..16 run form `RRCCCC01` expands back to its run. -/
theorem expand_rep_mid (L : Nat) (hL1 : 1 ≤ L) (hL16 : L ≤ 16) (r : Nat)
    (h1 : 1 ≤ r) (h2 : r ≤ 2^2) :
    expand ((r - 1) * 2^(8 - 2) + ((L - 1) * 4 + 1)) = List.replicate r L := by
  unfold expand
  rw [if_neg (by omega), if_pos (by omega)]
  congr 1 <;> omega

/-- A byte of the length-17..20 run form `RRRRCC11` expands back to its run. -/
theorem expand_rep_high (L : Nat) (hL1 : 17 ≤ L) (hL20 : L ≤ 20) (r : Nat)
    (h1 : 1 ≤ r) (h2 : r ≤ 2^4) :
    expand ((r - 1) * 2^(8 - 4) + ((L - 17) * 4 + 3)) = List.replicate r L := by
  unfold expand
  rw [if_neg (by omega), if_neg (by omega)]
  congr 1 <;> omega

/-- Expanding the bytes emitted by the `rep` loop for one run of `R`
copies of a length recovers exactly that run, provided a single byte of
the form expands correctly and the fuel covers the run. -/
theorem repAux_flatMap_expand (L ln bottom : Nat)
    (hspec : ∀ r, 1 ≤ r → r ≤ 2^ln →
        expand ((r - 1) * 2^(8 - ln) + bottom) = List.replicate r L) :
    ∀ fuel R, R ≤ fuel → (repAux fuel R ln bottom).flatMap expand = List.replicate R L := by
  intro fuel
  induction fuel with
  | zero =>
    intro R hR
    have h0 : R = 0 := by omega
    subst h0
    rfl
  | succ n ih =>
    intro R hR
    unfold repAux
    by_cases h : 2^ln ≤ R
    · rw [if_pos h]
      have hpos : 0 < 2^ln := Nat.pos_pow_of_pos ln (by omega)
      rw [List.flatMap_cons, ih (R - 2^ln) (by omega), hspec (2^ln) (by omega) (le_refl _),
        ← List.replicate_add]
      congr 1
      omega
    · rw [if_neg h]
      by_cases h0 : 0 < R
      · rw [if_pos h0]
        simp only [List.flatMap_cons, List.flatMap_nil, List.append_nil]
        exact hspec R (by omega) (by omega)
      · rw [if_neg h0]
        have hR0 : R = 0 := by omega
        rw [hR0]
        rfl

/-- Expanding the bytes emitted by `rep` for one run of `R` copies of a
length recovers exactly that run, provided a single byte of the form
expands correctly. -/
theorem rep_flatMap_expand (L ln bottom : Nat)
    (hspec : ∀ r, 1 ≤ r → r ≤ 2^ln →
        expand ((r - 1) * 2^(8 - ln) + bottom) = List.replicate r L) :
    ∀ R, (rep R ln bottom).flatMap expand = List.replicate R L :=
  fun R => repAux_flatMap_expand L ln bottom hspec R R (le_refl R)

/-- A list beginning with `L` splits as the maximal run of `L` followed by
the remainder, which is how the `Marshal` loop walks it. -/
theorem cons_run_split (L : Nat) (rest : List Nat) :
    L :: rest
      = List.replicate ((rest.takeWhile (· == L)).length + 1) L ++ rest.dropWhile (· == L) := by
  have htw : rest.takeWhile (· == L) = List.replicate (rest.takeWhile (· == L)).length L :=
    List.eq_replicate_of_mem fun b hb => by simpa using List.mem_takeWhile_imp hb
  rw [List.replicate_succ, List.cons_append, ← htw, List.takeWhile_append_dropWhile]

/-- The run-length body emitted by the `Marshal` loop for lengths at most
20 exists and expands back to exactly the original length sequence,
whenever the fuel covers the list. -/
theorem marshalBodyAux_spec :
    ∀ (fuel : Nat) (lens : List Nat), lens.length ≤ fuel → (∀ l ∈ lens, l ≤ 20) →
      ∃ m, marshalBodyAux fuel lens = some m ∧ m.flatMap expand = lens := by
  intro fuel
  induction fuel with
  | zero =>
    intro lens hlen _
    have hnil : lens = [] := List.eq_nil_of_length_eq_zero (by omega)
    subst hnil
    exact ⟨[], rfl, rfl⟩
  | succ n ih =>
    intro lens hlen h20
    match lens with
    | [] => exact ⟨[], rfl, rfl⟩
    | L :: rest =>
      have htlen : (rest.dropWhile (· == L)).length ≤ n := by
        have hsub := (List.dropWhile_sublist (l := rest) (p := (· == L))).length_le
        simp only [List.length_cons] at hlen
        omega
      have htail20 : ∀ l ∈ rest.dropWhile (· == L), l ≤ 20 := fun l hl =>
        h20 l (List.mem_cons_of_mem _ ((List.dropWhile_sublist _).mem hl))
      obtain ⟨m', hm', hexp'⟩ := ih (rest.dropWhile (· == L)) htlen htail20
      have hL20 : L ≤ 20 := h20 L (List.mem_cons_self _ _)
      have hsplit := cons_run_split L rest
      have hR1 : 1 ≤ (rest.takeWhile (· == L)).length + 1 := by omega
      rcases Nat.lt_or_ge L 1 with hL | hL1
      · -- L = 0: the zero form
        have hL0 : L = 0 := by omega
        subst hL0
        refine ⟨rep ((rest.takeWhile (· == 0)).length + 1) 7 0 ++ m', ?_, ?_⟩
        · simp only [marshalBodyAux, if_pos rfl, hm']
          rfl
        · rw [List.flatMap_append, hexp',
            rep_flatMap_expand 0 7 0 (fun r h1 h2 => expand_rep_zero r h1 h2) _]
          exact hsplit.symm
      · rcases Nat.lt_or_ge 16 L with hL17 | hL16
        · -- 17 ≤ L ≤ 20: the high form
          refine ⟨rep ((rest.takeWhile (· == L)).length + 1) 4 ((L - 17) * 4 + 3) ++ m', ?_, ?_⟩
          · simp only [marshalBodyAux, if_neg (by omega : ¬ L = 0),
              if_neg (by omega : ¬ L ≤ 16), if_pos hL20, hm']
            rfl
          · rw [List.flatMap_append, hexp',
              rep_flatMap_expand L 4 ((L - 17) * 4 + 3)
                (fun r h1 h2 => expand_rep_high L (by omega) hL20 r h1 h2) _]
            exact hsplit.symm
        · -- 1 ≤ L ≤ 16: the mid form
          refine ⟨rep ((rest.takeWhile (· == L)).length + 1) 2 ((L - 1) * 4 + 1) ++ m', ?_, ?_⟩
          · simp only [marshalBodyAux, if_neg (by omega : ¬ L = 0), if_pos hL16, hm']
            rfl
          · rw [List.flatMap_append, hexp',
              rep_flatMap_expand L 2 ((L - 1) * 4 + 1)
                (fun r h1 h2 => expand_rep_mid L hL1 hL16 r h1 h2) _]
            exact hsplit.symm

/-- The run-length body emitted by `Marshal` for lengths at most 20 exists
and expands back to exactly the original length sequence. -/
theorem marshalBody_spec (lens : List Nat) (h20 : ∀ l ∈ lens, l ≤ 20) :
    ∃ m, marshalBody lens = some m ∧ m.flatMap expand = lens :=
  marshalBodyAux_spec lens.length lens (le_refl _) h20

/-- `assignLoop` rewrites values but preserves every length. -/
theorem assignLoop_map_len (codes : List bitcode) :
    ∀ nv, (assignLoop nv codes).map bitcode.len = codes.map bitcode.len := by
  induction codes with
  | nil => intro nv; rfl
  | cons c cs ih =>
    intro nv
    unfold assignLoop
    by_cases h : c.len = 0
    · rw [if_pos h]
      simp only [List.map_cons, ih]
    · rw [if_neg h]
      simp only [List.map_cons, ih]

/-- `assignValues` preserves every length. -/
theorem assignValues_map_len (codes : List bitcode) :
    (assignValues codes).map bitcode.len = codes.map bitcode.len :=
  assignLoop_map_len codes _

/-- Claim C4: for every per-symbol code-length array with every entry in
0..20, unmarshalling the output of `Marshal` succeeds and reproduces the
same number of symbols with the same length at every index. -/
theorem marshal_unmarshal_roundtrip (codes : List bitcode) (h : ∀ c ∈ codes, c.len ≤ 20) :
    ∃ m out, Marshal codes = some m ∧ UnmarshalCode m = .ok out
      ∧ out.map bitcode.len = codes.map bitcode.len ∧ out.length = codes.length := by
  obtain ⟨m, hm, hexp⟩ := marshalBody_spec (codes.map bitcode.len)
    (by
      intro l hl
      obtain ⟨c, hc, rfl⟩ := List.mem_map.mp hl
      exact h c hc)
  have hmap : (assignValues ((m.flatMap expand).map (fun L => (⟨0, L⟩ : bitcode)))).map bitcode.len
      = codes.map bitcode.len := by
    rw [assignValues_map_len, List.map_map]
    have hcomp : (bitcode.len ∘ fun L => (⟨0, L⟩ : bitcode)) = id := rfl
    rw [hcomp, List.map_id, hexp]
  refine ⟨magicByte :: m, assignValues ((m.flatMap expand).map (fun L => ⟨0, L⟩)), ?_, ?_, hmap, ?_⟩
  · unfold Marshal
    rw [hm]
    rfl
  · simp [UnmarshalCode]
  · have hlen := congrArg List.length hmap
    simpa using hlen

/-- Witness for `marshal_unmarshal_roundtrip` at the concrete length array
[1,2,2,5,5,5]. -/
theorem marshal_unmarshal_roundtrip_witness :
    ∃ m out, Marshal [⟨0, 1⟩, ⟨0, 2⟩, ⟨0, 2⟩, ⟨0, 5⟩, ⟨0, 5⟩, ⟨0, 5⟩] = some m
      ∧ UnmarshalCode m = .ok out
      ∧ out.map bitcode.len
          = [⟨0, 1⟩, ⟨0, 2⟩, ⟨0, 2⟩, ⟨0, 5⟩, ⟨0, 5⟩, ⟨0, 5⟩].map bitcode.len
      ∧ out.length = [(⟨0, 1⟩ : bitcode), ⟨0, 2⟩, ⟨0, 2⟩, ⟨0, 5⟩, ⟨0, 5⟩, ⟨0, 5⟩].length :=
  marshal_unmarshal_roundtrip [⟨0, 1⟩, ⟨0, 2⟩, ⟨0, 2⟩, ⟨0, 5⟩, ⟨0, 5⟩, ⟨0, 5⟩] (by decide)

/-- Claim C9: `Marshal` output always begins with the magic byte
`0b11000000`; for the length array [0] the body is the single byte
`0b00000000`; for [1,2,2,5,5,5] the body is exactly
`0b00000001, 0b01000101, 0b10010001`. -/
theorem marshal_magic_and_examples :
    (∀ codes : List bitcode, (∀ c ∈ codes, c.len ≤ 20) →
        ∃ body, Marshal codes = some (magicByte :: body))
    ∧ magicByte = 0b11000000
    ∧ Marshal [⟨0, 0⟩] = some [magicByte, 0b00000000]
    ∧ Marshal [⟨0, 1⟩, ⟨0, 2⟩, ⟨0, 2⟩, ⟨0, 5⟩, ⟨0, 5⟩, ⟨0, 5⟩]
        = some [magicByte, 0b00000001, 0b01000101, 0b10010001] := by
  refine ⟨?_, by decide, by decide, by decide⟩
  intro codes h
  obtain ⟨m, hm, _⟩ := marshalBody_spec (codes.map bitcode.len)
    (by
      intro l hl
      obtain ⟨c, hc, rfl⟩ := List.mem_map.mp hl
      exact h c hc)
  refine ⟨m, ?_⟩
  unfold Marshal
  rw [hm]
  rfl

/-- Witness for `marshal_magic_and_examples` at a concrete code. -/
theorem marshal_magic_witness :
    ∃ body, Marshal [⟨0, 3⟩, ⟨0, 3⟩] = some (magicByte :: body) :=
  marshal_magic_and_examples.1 [⟨0, 3⟩, ⟨0, 3⟩] (by decide)

/-! ### C5/C6: characterisation of `assignValues` -/

/-- Each step of the `assignValues` walk gives entry `i` of non-zero
length `L` the value `nv L` plus the number of earlier entries of the same
length (the pending `nextVal[L]++` increments); zero-length entries are
returned unchanged. -/
theorem assignLoop_getElem (codes : List bitcode) :
    ∀ (nv : Nat → Nat) (i : Nat) (c : bitcode),
      codes[i]? = some c →
      (assignLoop nv codes)[i]? =
        some (if c.len = 0 then c
              else ⟨nv c.len + countLenBefore codes i c.len, c.len⟩) := by
  induction codes with
  | nil =>
    intro nv i c h
    simp at h
  | cons hd tl ih =>
    intro nv i c h
    match i with
    | 0 =>
      rw [List.getElem?_cons_zero] at h
      have hc : hd = c := Option.some.inj h
      subst hc
      unfold assignLoop
      by_cases h0 : hd.len = 0
      · rw [if_pos h0, List.getElem?_cons_zero, if_pos h0]
      · rw [if_neg h0, List.getElem?_cons_zero, if_neg h0]
        simp [countLenBefore]
    | i + 1 =>
      rw [List.getElem?_cons_succ] at h
      unfold assignLoop
      by_cases h0 : hd.len = 0
      · rw [if_pos h0, List.getElem?_cons_succ, ih nv i c h]
        by_cases hc0 : c.len = 0
        · rw [if_pos hc0, if_pos hc0]
        · rw [if_neg hc0, if_neg hc0]
          have hbeq : (hd.len == c.len) = false := by
            rw [beq_eq_false_iff_ne]
            omega
          have hcnt : countLenBefore (hd :: tl) (i + 1) c.len = countLenBefore tl i c.len := by
            simp [countLenBefore, List.take_succ_cons, List.filter_cons, hbeq]
          rw [hcnt]
      · rw [if_neg h0, List.getElem?_cons_succ,
          ih (updateAt nv hd.len (nv hd.len + 1)) i c h]
        by_cases hc0 : c.len = 0
        · rw [if_pos hc0, if_pos hc0]
        · rw [if_neg hc0, if_neg hc0]
          by_cases heq : hd.len = c.len
          · have hbeq : (hd.len == c.len) = true := beq_iff_eq.mpr heq
            have hcnt : countLenBefore (hd :: tl) (i + 1) c.len
                = countLenBefore tl i c.len + 1 := by
              simp [countLenBefore, List.take_succ_cons, List.filter_cons, hbeq]
            have hup : updateAt nv hd.len (nv hd.len + 1) c.len = nv c.len + 1 := by
              unfold updateAt
              rw [if_pos heq.symm, heq]
            rw [hcnt, hup]
            have harith : nv c.len + 1 + countLenBefore tl i c.len
                = nv c.len + (countLenBefore tl i c.len + 1) := by omega
            rw [harith]
          · have hbeq : (hd.len == c.len) = false := by
              rw [beq_eq_false_iff_ne]
              exact heq
            have hne : ¬ (c.len = hd.len) := fun hh => heq hh.symm
            have hcnt : countLenBefore (hd :: tl) (i + 1) c.len = countLenBefore tl i c.len := by
              simp [countLenBefore, List.take_succ_cons, List.filter_cons, hbeq]
            have hup : updateAt nv hd.len (nv hd.len + 1) c.len = nv c.len := by
              unfold updateAt
              rw [if_neg hne]
            rw [hcnt, hup]

/-- One more walked entry adds one to the count when its length matches. -/
theorem countLenBefore_succ (codes : List bitcode) (i : Nat) (c : bitcode) (L : Nat)
    (h : codes[i]? = some c) :
    countLenBefore codes (i + 1) L
      = countLenBefore codes i L + (if c.len = L then 1 else 0) := by
  unfold countLenBefore
  rw [List.take_succ, h, List.filter_append, List.length_append]
  congr 1
  by_cases hc : c.len = L
  · simp [hc]
  · simp [hc]

/-- Counts over a longer walked prefix never decrease. -/
theorem countLenBefore_mono (codes : List bitcode) (L i j : Nat) (h : i ≤ j) :
    countLenBefore codes i L ≤ countLenBefore codes j L := by
  unfold countLenBefore
  exact List.Sublist.length_le (((List.take_prefix_take_left codes h).sublist).filter _)

/-- The count of equal-length entries before index `i` stays below the
total count of that length: the walk never runs past `counts[L]`
increments. -/
theorem countLenBefore_lt_counts (codes : List bitcode) (i : Nat) (c : bitcode)
    (h : codes[i]? = some c) :
    countLenBefore codes i c.len < countsOf codes c.len := by
  have hi : i < codes.length := by
    by_contra hni
    rw [List.getElem?_eq_none (by omega)] at h
    exact Option.noConfusion h
  have hall : countsOf codes c.len = countLenBefore codes codes.length c.len := by
    unfold countsOf countLenBefore
    rw [List.take_length]
  have hsucc := countLenBefore_succ codes i c c.len h
  rw [if_pos rfl] at hsucc
  have hmono := countLenBefore_mono codes c.len (i + 1) codes.length (by omega)
  omega

/-- Strictly more equal-length entries are counted past a matching entry. -/
theorem countLenBefore_strict (codes : List bitcode) (i j : Nat) (c : bitcode)
    (h : codes[i]? = some c) (hij : i < j) :
    countLenBefore codes i c.len < countLenBefore codes j c.len := by
  have hsucc := countLenBefore_succ codes i c c.len h
  rw [if_pos rfl] at hsucc
  have hmono := countLenBefore_mono codes c.len (i + 1) j (by omega)
  omega

/-- The first value of a longer length dominates the scaled exhausted
range of a shorter one: `(nextVal L + cnt L) * 2^(M-L) ≤ nextVal M`. -/
theorem nextVal_le_nextVal (cnt : Nat → Nat) :
    ∀ (M L : Nat), 1 ≤ L → L < M →
      (nextVal cnt L + cnt L) * 2^(M - L) ≤ nextVal cnt M := by
  intro M
  induction M with
  | zero =>
    intro L h1 h2
    omega
  | succ M ihM =>
    intro L h1 h2
    rcases Nat.lt_or_ge L M with hLM | hML
    · have hstep := ihM L h1 hLM
      have hM1 : M + 1 - L = (M - L) + 1 := by omega
      rw [hM1, pow_succ, ← Nat.mul_assoc]
      refine le_trans (Nat.mul_le_mul_right 2 hstep) ?_
      rw [show nextVal cnt (M + 1)
          = (nextVal cnt M + (if M = 0 then 0 else cnt M)) * 2 from rfl]
      exact Nat.mul_le_mul_right 2 (Nat.le_add_right _ _)
    · have hLM : L = M := by omega
      subst hLM
      have hM1 : L + 1 - L = 1 := by omega
      rw [hM1, pow_one,
        show nextVal cnt (L + 1) = (nextVal cnt L + (if L = 0 then 0 else cnt L)) * 2 from rfl,
        if_neg (by omega)]

/-- `nextVal L + cnt L` is the partial Kraft sum of the lengths up to `L`,
scaled by `2^L`. -/
theorem nextVal_add_cnt_eq_sum (cnt : Nat → Nat) :
    ∀ L, 1 ≤ L →
      nextVal cnt L + cnt L
        = ∑ l in Finset.range (L + 1), (if l = 0 then 0 else cnt l * 2^(L - l)) := by
  intro L
  induction L with
  | zero =>
    intro h
    omega
  | succ M ihM =>
    intro _
    rcases Nat.eq_zero_or_pos M with hM0 | hMpos
    · subst hM0
      rw [show nextVal cnt 1 = (nextVal cnt 0 + (if 0 = 0 then 0 else cnt 0)) * 2 from rfl]
      simp [Finset.sum_range_succ, nextVal]
    · have ih := ihM hMpos
      rw [show nextVal cnt (M + 1)
          = (nextVal cnt M + (if M = 0 then 0 else cnt M)) * 2 from rfl,
        if_neg (by omega), Finset.sum_range_succ, if_neg (by omega : ¬ (M + 1 = 0))]
      have hpow : ∀ l ∈ Finset.range (M + 1),
          (if l = 0 then 0 else cnt l * 2^(M + 1 - l))
            = 2 * (if l = 0 then 0 else cnt l * 2^(M - l)) := by
        intro l hl
        have hlM : l < M + 1 := Finset.mem_range.mp hl
        by_cases hl0 : l = 0
        · simp [hl0]
        · rw [if_neg hl0, if_neg hl0, show M + 1 - l = (M - l) + 1 from by omega, pow_succ]
          ring
      rw [Finset.sum_congr rfl hpow, ← Finset.mul_sum, ← ih]
      have hMM : M + 1 - (M + 1) = 0 := by omega
      rw [hMM, pow_zero]
      ring

/-- The listwise Kraft sum regrouped by length: it equals the sum over all
lengths `1..20` of `count[l] * 2^(20-l)`. -/
theorem kraftSum_eq_sum (codes : List bitcode) (h20 : ∀ c ∈ codes, c.len ≤ 20) :
    kraftSum codes
      = ∑ l in Finset.range 21, (if l = 0 then 0 else countsOf codes l * 2^(20 - l)) := by
  induction codes with
  | nil =>
    simp [kraftSum, countsOf]
  | cons c cs ih =>
    have hc20 : c.len ≤ 20 := h20 c (List.mem_cons_self _ _)
    have ih' := ih fun d hd => h20 d (List.mem_cons_of_mem _ hd)
    have hk : kraftSum (c :: cs)
        = (if c.len = 0 then 0 else 2^(maxCodeLen - c.len)) + kraftSum cs := by
      unfold kraftSum
      rw [List.map_cons, List.sum_cons]
    rw [hk, ih']
    have hcnt : ∀ l, countsOf (c :: cs) l = (if c.len = l then 1 else 0) + countsOf cs l := by
      intro l
      unfold countsOf
      rw [List.filter_cons]
      by_cases hl : c.len = l
      · simp [hl]
        omega
      · simp [hl]
    have hsplit : ∀ l ∈ Finset.range 21,
        (if l = 0 then 0 else countsOf (c :: cs) l * 2^(20 - l))
          = (if l = 0 then 0 else countsOf cs l * 2^(20 - l))
            + (if l = 0 then 0 else (if c.len = l then 1 else 0) * 2^(20 - l)) := by
      intro l _
      by_cases hl0 : l = 0
      · simp [hl0]
      · rw [if_neg hl0, if_neg hl0, if_neg hl0, hcnt l]
        ring
    rw [Finset.sum_congr rfl hsplit, Finset.sum_add_distrib]
    have hsingle : (∑ l in Finset.range 21,
        (if l = 0 then 0 else (if c.len = l then 1 else 0) * 2^(20 - l)))
          = (if c.len = 0 then 0 else 2^(maxCodeLen - c.len)) := by
      by_cases hc0 : c.len = 0
      · rw [if_pos hc0]
        apply Finset.sum_eq_zero
        intro l hl
        by_cases hl0 : l = 0
        · rw [if_pos hl0]
        · rw [if_neg hl0, if_neg (by omega), Nat.zero_mul]
      · rw [if_neg hc0, Finset.sum_eq_single c.len]
        · rw [if_neg hc0, if_pos rfl, Nat.one_mul]
          rfl
        · intro l hl hne
          by_cases hl0 : l = 0
          · rw [if_pos hl0]
          · rw [if_neg hl0, if_neg (fun hh => hne hh.symm), Nat.zero_mul]
        · intro habs
          exact absurd (Finset.mem_range.mpr (by omega)) habs
    rw [hsingle]
    exact Nat.add_comm _ _

/-- Under the Kraft inequality, every length's value range fits in its
width: `nextVal L + count L ≤ 2^L`. -/
theorem nextVal_cnt_le_pow (codes : List bitcode) (h20 : ∀ c ∈ codes, c.len ≤ 20)
    (hk : kraftSum codes ≤ 2^maxCodeLen) (L : Nat) (h1 : 1 ≤ L) (hL : L ≤ 20) :
    nextVal (countsOf codes) L + countsOf codes L ≤ 2^L := by
  have hks : nextVal (countsOf codes) 20 + countsOf codes 20 ≤ 2^20 := by
    have h1' := nextVal_add_cnt_eq_sum (countsOf codes) 20 (by omega)
    have h2' := kraftSum_eq_sum codes h20
    have : (20 : Nat) + 1 = 21 := rfl
    rw [h1', this, ← h2']
    exact hk
  rcases Nat.lt_or_ge L 20 with hL20 | hL20
  · have hle := nextVal_le_nextVal (countsOf codes) 20 L h1 hL20
    have hchain : (nextVal (countsOf codes) L + countsOf codes L) * 2^(20 - L) ≤ 2^20 := by
      have : nextVal (countsOf codes) 20 ≤ 2^20 := by omega
      omega
    have hsplit : (2 : Nat)^20 = 2^L * 2^(20 - L) := by
      rw [← pow_add]
      congr 1
      omega
    rw [hsplit] at hchain
    have hpos : 0 < 2^(20 - L) := Nat.pos_pow_of_pos _ (by omega)
    exact Nat.le_of_mul_le_mul_right hchain hpos
  · have hLeq : L = 20 := by omega
    subst hLeq
    exact hks

/-- Claim C5: `assignValues` implements the canonical value assignment:
with `countsOf codes L` the number of symbols of length `L`, the first
value for each length follows the recurrence of `nextVal`
(`nextVal (L+1) = (nextVal L + count L) <<< 1`, `count 0` treated as 0),
symbols are walked in increasing index order and each non-zero-length
symbol receives `value = nextVal[len]++` — i.e. entry `i` receives
`nextVal len + countLenBefore codes i len`; and the length array
[2,1,3,3] receives the values [2,0,6,7].  The hypotheses restrict to the
Code data-model invariant (every length at most 20, Kraft inequality),
the domain on which the Go `uint32` arithmetic provably never wraps: the
second conjunct bounds every intermediate of the recurrence by
`2^L ≤ 2^20`, and each assigned value is below `2^32`, so the unbounded
`Nat` model coincides with the source's `uint32` computation there. -/
theorem assignValues_canonical (codes : List bitcode)
    (h20 : ∀ c ∈ codes, c.len ≤ maxCodeLen)
    (hk : kraftSum codes ≤ 2^maxCodeLen) :
    (∀ (i : Nat) (c : bitcode), codes[i]? = some c → c.len ≠ 0 →
        (assignValues codes)[i]?
          = some ⟨nextVal (countsOf codes) c.len + countLenBefore codes i c.len, c.len⟩
        ∧ nextVal (countsOf codes) c.len + countLenBefore codes i c.len < 2^32)
    ∧ (∀ L : Nat, 1 ≤ L → L ≤ maxCodeLen →
        nextVal (countsOf codes) L + countsOf codes L ≤ 2^L)
    ∧ assignValues [⟨0, 2⟩, ⟨0, 1⟩, ⟨0, 3⟩, ⟨0, 3⟩] = [⟨2, 2⟩, ⟨0, 1⟩, ⟨6, 3⟩, ⟨7, 3⟩] := by
  refine ⟨?_, ?_, by decide⟩
  · intro i c h hlen
    constructor
    · rw [assignValues, assignLoop_getElem codes _ i c h, if_neg hlen]
    · have hcnt := countLenBefore_lt_counts codes i c h
      have hmem : c ∈ codes := List.getElem?_mem h
      have h1 : 1 ≤ c.len := by omega
      have hL : c.len ≤ 20 := h20 c hmem
      have hfit := nextVal_cnt_le_pow codes h20 hk c.len h1 hL
      have hpow : (2 : Nat)^c.len ≤ 2^32 := Nat.pow_le_pow_right (by omega) (by omega)
      omega
  · intro L h1 hL
    exact nextVal_cnt_le_pow codes h20 hk L h1 hL

/-- Witness for `assignValues_canonical` at the RFC 1951 example, index 3. -/
theorem assignValues_canonical_witness :
    ((assignValues [⟨0, 2⟩, ⟨0, 1⟩, ⟨0, 3⟩, ⟨0, 3⟩])[3]?
        = some ⟨nextVal (countsOf [⟨0, 2⟩, ⟨0, 1⟩, ⟨0, 3⟩, ⟨0, 3⟩]) 3
                + countLenBefore [⟨0, 2⟩, ⟨0, 1⟩, ⟨0, 3⟩, ⟨0, 3⟩] 3 3, 3⟩)
    ∧ nextVal (countsOf [⟨0, 2⟩, ⟨0, 1⟩, ⟨0, 3⟩, ⟨0, 3⟩]) 3
        + countLenBefore [⟨0, 2⟩, ⟨0, 1⟩, ⟨0, 3⟩, ⟨0, 3⟩] 3 3 < 2^32 :=
  (assignValues_canonical [⟨0, 2⟩, ⟨0, 1⟩, ⟨0, 3⟩, ⟨0, 3⟩] (by decide) (by decide)).1
    3 ⟨0, 3⟩ (by decide) (by decide)

/-- Claim C6: for a valid length assignment (all lengths at most 20, Kraft
inequality satisfied), `assignValues` makes codes of equal length
consecutive integers in symbol-index order (value of the next same-length
symbol is one more), every value fits in its width, and no codeword is a
bit-prefix of another among the non-zero-length entries. -/
theorem assignValues_consecutive_and_prefix_free (codes : List bitcode)
    (h20 : ∀ c ∈ codes, c.len ≤ maxCodeLen)
    (hk : kraftSum codes ≤ 2^maxCodeLen) :
    (∀ (i j : Nat) (a b : bitcode), i < j →
        (assignValues codes)[i]? = some a → (assignValues codes)[j]? = some b →
        a.len = b.len → a.len ≠ 0 →
        (∀ (k : Nat) (ck : bitcode), i < k → k < j → codes[k]? = some ck → ck.len ≠ a.len) →
        b.val = a.val + 1)
    ∧ (∀ (i : Nat) (a : bitcode), (assignValues codes)[i]? = some a → a.len ≠ 0 →
        a.val < 2^a.len)
    ∧ (∀ (i j : Nat) (a b : bitcode), i ≠ j →
        (assignValues codes)[i]? = some a → (assignValues codes)[j]? = some b →
        a.len ≠ 0 → b.len ≠ 0 → ¬ prefixOf a b) := by
  have hlen_eq : (assignValues codes).length = codes.length := by
    have h := congrArg List.length (assignValues_map_len codes)
    simpa using h
  have hshape : ∀ (i : Nat) (a : bitcode), (assignValues codes)[i]? = some a → a.len ≠ 0 →
      ∃ c, codes[i]? = some c ∧ c.len = a.len
        ∧ a = ⟨nextVal (countsOf codes) a.len + countLenBefore codes i a.len, a.len⟩ := by
    intro i a ha ha0
    rw [assignValues] at ha
    have hi : i < codes.length := by
      by_contra hni
      rw [List.getElem?_eq_none
        (by rw [show (assignLoop (nextVal (countsOf codes)) codes).length = codes.length from
            by simpa using congrArg List.length (assignLoop_map_len codes _)]; omega)] at ha
      exact Option.noConfusion ha
    have hci : codes[i]? = some codes[i] := List.getElem?_eq_getElem hi
    have hchar := assignLoop_getElem codes (nextVal (countsOf codes)) i codes[i] hci
    rw [ha] at hchar
    have heq := Option.some.inj hchar
    by_cases h0 : codes[i].len = 0
    · rw [if_pos h0] at heq
      rw [heq] at ha0
      exact absurd h0 ha0
    · rw [if_neg h0] at heq
      subst heq
      exact ⟨codes[i], hci, rfl, rfl⟩
  refine ⟨?_, ?_, ?_⟩
  · -- equal-length codes are consecutive
    intro i j a b hij ha hb hab ha0 hbetween
    obtain ⟨ci, hci, hcilen, haeq⟩ := hshape i a ha ha0
    have hb0 : b.len ≠ 0 := by rw [← hab]; exact ha0
    obtain ⟨cj, hcj, hcjlen, hbeq⟩ := hshape j b hb hb0
    have hstep : countLenBefore codes (i + 1) a.len = countLenBefore codes i a.len + 1 := by
      have h := countLenBefore_succ codes i ci a.len hci
      rw [if_pos hcilen] at h
      omega
    have hmid : countLenBefore codes j a.len = countLenBefore codes (i + 1) a.len := by
      unfold countLenBefore
      have hsplit : codes.take j = codes.take (i + 1) ++ (codes.drop (i + 1)).take (j - (i + 1)) := by
        rw [← List.take_add]
        congr 1
        omega
      rw [hsplit, List.filter_append, List.length_append]
      have hnil : ((codes.drop (i + 1)).take (j - (i + 1))).filter (fun d => d.len == a.len)
          = [] := by
        rw [List.filter_eq_nil_iff]
        intro d hd
        obtain ⟨m, hm, hdm⟩ := List.getElem_of_mem hd
        have hmlt : m < j - (i + 1) := by
          have h := hm
          rw [List.length_take] at h
          omega
        have hget : ((codes.drop (i + 1)).take (j - (i + 1)))[m]? = some d := by
          rw [List.getElem?_eq_getElem hm, hdm]
        rw [List.getElem?_take, if_pos hmlt, List.getElem?_drop] at hget
        have hne := hbetween (i + 1 + m) d (by omega) (by omega) hget
        simp [hne]
      rw [hnil]
      simp
    have hva : a.val = nextVal (countsOf codes) a.len + countLenBefore codes i a.len := by
      rw [haeq]
    have hvb : b.val = nextVal (countsOf codes) b.len + countLenBefore codes j b.len := by
      rw [hbeq]
    rw [← hab] at hvb
    omega
  · -- every value fits in its width
    intro i a ha ha0
    obtain ⟨ci, hci, hcilen, haeq⟩ := hshape i a ha ha0
    have hcnt := countLenBefore_lt_counts codes i ci hci
    rw [hcilen] at hcnt
    have hmem : ci ∈ codes := List.getElem?_mem hci
    have h1 : 1 ≤ a.len := by omega
    have hL : a.len ≤ 20 := by rw [← hcilen]; exact h20 ci hmem
    have hfit := nextVal_cnt_le_pow codes h20 hk a.len h1 hL
    have hva : a.val = nextVal (countsOf codes) a.len + countLenBefore codes i a.len := by
      rw [haeq]
    omega
  · -- no codeword is a bit-prefix of another
    intro i j a b hij ha hb ha0 hb0 hpre
    obtain ⟨ci, hci, hcilen, haeq⟩ := hshape i a ha ha0
    obtain ⟨cj, hcj, hcjlen, hbeq⟩ := hshape j b hb hb0
    obtain ⟨hlen_le, hdiv⟩ := hpre
    have hva : a.val = nextVal (countsOf codes) a.len + countLenBefore codes i a.len := by
      rw [haeq]
    have hvb : b.val = nextVal (countsOf codes) b.len + countLenBefore codes j b.len := by
      rw [hbeq]
    rcases Nat.eq_or_lt_of_le hlen_le with heq | hlt
    · -- equal lengths: the values are distinct
      have hb_eq_a : b.val = a.val := by
        have hz : b.len - a.len = 0 := by omega
        rw [hz, pow_zero, Nat.div_one] at hdiv
        exact hdiv
      rw [← heq] at hvb
      rcases Nat.lt_or_ge i j with hij' | hij'
      · have hstrict := countLenBefore_strict codes i j ci hci hij'
        rw [hcilen] at hstrict
        omega
      · have hji : j < i := by omega
        have hstrict := countLenBefore_strict codes j i cj hcj hji
        rw [hcjlen, ← heq] at hstrict
        omega
    · -- a strictly shorter: b's value range sits above a's scaled range
      have h1a : 1 ≤ a.len := by omega
      have hge := nextVal_le_nextVal (countsOf codes) b.len a.len h1a hlt
      have hbv : (nextVal (countsOf codes) a.len + countsOf codes a.len) * 2^(b.len - a.len)
          ≤ b.val := by
        omega
      have hdiv_ge : nextVal (countsOf codes) a.len + countsOf codes a.len
          ≤ b.val / 2^(b.len - a.len) := by
        rw [Nat.le_div_iff_mul_le (Nat.pos_pow_of_pos _ (by omega))]
        exact hbv
      have hcnt := countLenBefore_lt_counts codes i ci hci
      rw [hcilen] at hcnt
      rw [hdiv] at hdiv_ge
      omega

/-- Witness for `assignValues_consecutive_and_prefix_free` at the RFC 1951
example lengths [2,1,3,3] (canonical values [2,0,6,7]): the two length-3
codes are consecutive, and 6 is not a bit-prefix of 7 at width 3. -/
theorem assignValues_consecutive_and_prefix_free_witness :
    ((⟨7, 3⟩ : bitcode).val = (⟨6, 3⟩ : bitcode).val + 1)
    ∧ ¬ prefixOf ⟨6, 3⟩ ⟨7, 3⟩ :=
  ⟨(assignValues_consecutive_and_prefix_free [⟨0, 2⟩, ⟨0, 1⟩, ⟨0, 3⟩, ⟨0, 3⟩]
      (by decide) (by decide)).1 2 3 ⟨6, 3⟩ ⟨7, 3⟩ (by decide) (by decide) (by decide)
      rfl (by decide) (fun k ck hk2 hk3 _ => by omega),
   (assignValues_consecutive_and_prefix_free [⟨0, 2⟩, ⟨0, 1⟩, ⟨0, 3⟩, ⟨0, 3⟩]
      (by decide) (by decide)).2.2 2 3 ⟨6, 3⟩ ⟨7, 3⟩ (by decide) (by decide) (by decide)
      (by decide) (by decide)⟩

/-- Witness for `unmarshal_total_after_magic` at a concrete body. -/
theorem unmarshal_total_after_magic_witness :
    ∃ code, UnmarshalCode (magicByte :: [5]) = .ok code :=
  unmarshal_total_after_magic.1 [5]
